import Mathlib

/-!
Verification of the derived-metrics and gamification core of the
workout-planner client (streaks, XP/points, achievements, week handling,
day-timeline aggregation, calendar string utilities, settings validation).

The JavaScript source is shallowly embedded.  Local time is modelled in two
coordinate systems, matching what each source function actually reads from a
`Date` value:

* day-number coordinates (`Instant`): a local calendar day index (an integer,
  day 0 being 1970-01-01, a Thursday) together with the minute of that day.
  Functions that only step whole days or compare day identity
  (`dayKey`, `computeStreakFromDays`, `startOfWeek`, the timeline) are
  embedded here.  `dayKey`/`dateToYMD` used as grouping keys are injective on
  local calendar days, so the abstract key of a day is its day number.
* calendar-component coordinates (`LocalDate`): year/month/day fields, for the
  functions that format or parse `YYYY-MM-DD` strings (`dateToYMD`,
  `ymdToBounds`).

JavaScript numbers appearing here hold small integers, embedded as `Int`/`Nat`
(`%` on numbers is embedded as truncated remainder `Int.tmod`, `Math.floor` of
a quotient as the rational floor).
-/

/-- A local instant: local calendar day number plus minute of the day. -/
structure Instant where
  day : ℤ
  mins : ℕ
deriving DecidableEq, Repr

/-- Embedding of `dayKey(d)` (both revisions: `toDateString()` in one,
local-midnight ISO slice in the other): both are injective per local calendar
day, so the key is modelled as the local day number. -/
def dayKey (i : Instant) : ℤ := i.day

/-- Embedding of `computeStreakFromDays(daysSet)` / the loop of
`calcStreakFromCompletions`: starting at today's day, walk backward one day at
a time while the day is in the set.  The source mutates a cursor and never
changes the set; to exhibit termination to Lean the visited day is erased from
the set on recursion, which cannot change any later membership test because
the cursor strictly decreases. -/
def computeStreakFromDays (days : Finset ℤ) (t : ℤ) : ℕ :=
  if h : t ∈ days then computeStreakFromDays (days.erase t) (t - 1) + 1
  else 0
termination_by days.card
decreasing_by exact Finset.card_erase_lt_of_mem h

/-- Embedding of `calcStreakFromCompletions(rows)`: guard on empty input, then
build the set of day keys of the completion timestamps and walk backward from
today (`t` is today's day number; the source reads `new Date()`). -/
def calcStreakFromCompletions (rows : List Instant) (t : ℤ) : ℕ :=
  if rows = [] then 0
  else computeStreakFromDays (rows.map dayKey).toFinset t

/-- Result record of `xpFromPoints`. -/
structure XPState where
  level : ℤ
  inLevel : ℤ
  pct : ℚ
  nextAt : ℤ
deriving DecidableEq, Repr

/-- Embedding of `xpFromPoints(points)`:
`level = Math.floor(p / 100) + 1`, `inLevel = p % 100` (JS `%` truncates, hence
`Int.tmod`), `pct = Math.max(0, Math.min(1, inLevel / 100))`,
`nextAt = level * 100`.  (The `Number.isFinite` guard of the source replaces
non-numeric input by 0; inputs here are integers by typing.) -/
def xpFromPoints (p : ℤ) : XPState :=
  let level : ℤ := ⌊(p : ℚ) / 100⌋ + 1
  let inLevel : ℤ := p.tmod 100
  let pct : ℚ := max 0 (min 1 ((inLevel : ℚ) / 100))
  { level := level, inLevel := inLevel, pct := pct, nextAt := level * 100 }

/-- Embedding of `awardPoints(add)` acting on the stored settings row's points
column (`none` = no settings row): read current points (default 0), add the
delta, upsert the row with the new value. -/
def awardPoints (stored : Option ℤ) (add : ℤ) : Option ℤ :=
  let current : ℤ := match stored with | some p => p | none => 0
  some (current + add)

/-- The points effect of `complete(workoutId)`: after inserting the completion
row it calls `awardPoints(10)`. -/
def completePoints (stored : Option ℤ) : Option ℤ := awardPoints stored 10

/-- One day bucket of the dashboard timeline (`{ymd, count, isToday}`; the
display-only `label`/`dow` fields are presentation and not modelled). -/
structure DayBucket where
  ymd : ℤ
  count : ℕ
  isToday : Bool
deriving DecidableEq, Repr

/-- Embedding of the `timeline` aggregation: for `i = 13` down to `0` push the
bucket of day `today - i`, counting the completions whose `dateToYMD` key
matches that day (the source first builds a key→count map; `map[k] || 0` is
the number of rows with key `k`, embedded directly as a filter length), and
flagging the bucket of `today` itself. -/
def timeline (rows : List Instant) (today : ℤ) : List DayBucket :=
  (List.range 14).map (fun j : ℕ =>
    let d : ℤ := today - (13 - (j : ℤ))
    { ymd := d
      count := (rows.filter (fun r => decide (dayKey r = d))).length
      isToday := decide (d = today) })

/-- The aggregate counters the achievement tables read.  The revision in
`App.js` reads `totalWorkouts, totalCompletions, streakDays, completedThisWeek`;
the other revision reads `totalWorkouts, completionsTotal, streak, points`. -/
structure Counters where
  totalWorkouts : ℤ
  totalCompletions : ℤ
  streakDays : ℤ
  points : ℤ
  completedThisWeek : ℤ
deriving DecidableEq, Repr

/-- One evaluated achievement row. -/
structure Achievement where
  key : String
  title : String
  desc : String
  ok : Bool
deriving DecidableEq, Repr

/-- Embedding of `computeAchievements({...})` from `App.js`: the fixed ordered
rule table evaluated against the counters. -/
def computeAchievements (c : Counters) : List Achievement :=
  [ ⟨"first_workout", "First Workout", "Create your first plan.", decide (c.totalWorkouts ≥ 1)⟩,
    ⟨"first_complete", "First Completion", "Complete a workout once.", decide (c.totalCompletions ≥ 1)⟩,
    ⟨"week_starter", "Week Starter", "Complete 2 workouts this week.", decide (c.completedThisWeek ≥ 2)⟩,
    ⟨"week_machine", "Week Machine", "Complete 4 workouts this week.", decide (c.completedThisWeek ≥ 4)⟩,
    ⟨"week_monster", "Week Monster", "Complete 6 workouts this week.", decide (c.completedThisWeek ≥ 6)⟩,
    ⟨"streak_3", "3-Day Streak", "Complete workouts 3 days in a row.", decide (c.streakDays ≥ 3)⟩,
    ⟨"streak_7", "7-Day Streak", "Complete workouts 7 days in a row.", decide (c.streakDays ≥ 7)⟩,
    ⟨"streak_14", "14-Day Streak", "Complete workouts 14 days in a row.", decide (c.streakDays ≥ 14)⟩,
    ⟨"complete_10", "10 Completions", "Complete workouts 10 times.", decide (c.totalCompletions ≥ 10)⟩,
    ⟨"complete_25", "25 Completions", "Complete workouts 25 times.", decide (c.totalCompletions ≥ 25)⟩,
    ⟨"complete_50", "50 Completions", "Complete workouts 50 times.", decide (c.totalCompletions ≥ 50)⟩ ]

/-- Embedding of the `achievements` table of the other revision (computed from
`totalWorkouts, completionsTotal, streak, points`). -/
def achievements (c : Counters) : List Achievement :=
  [ ⟨"first_workout", "First Workout", "Create your first plan.", decide (c.totalWorkouts ≥ 1)⟩,
    ⟨"five_workouts", "5 Workouts", "Create 5 workout plans.", decide (c.totalWorkouts ≥ 5)⟩,
    ⟨"first_completion", "First Completion", "Complete a workout once.", decide (c.totalCompletions ≥ 1)⟩,
    ⟨"ten_completions", "10 Completions", "Complete 10 workouts.", decide (c.totalCompletions ≥ 10)⟩,
    ⟨"streak3", "Streak Starter", "3-day streak.", decide (c.streakDays ≥ 3)⟩,
    ⟨"streak7", "Streak Master", "7-day streak.", decide (c.streakDays ≥ 7)⟩,
    ⟨"points100", "Point Collector", "Earn 100 points.", decide (c.points ≥ 100)⟩ ]

/-- Pointwise order on the counter tuples. -/
def Counters.le (a b : Counters) : Prop :=
  a.totalWorkouts ≤ b.totalWorkouts ∧ a.totalCompletions ≤ b.totalCompletions ∧
  a.streakDays ≤ b.streakDays ∧ a.points ≤ b.points ∧
  a.completedThisWeek ≤ b.completedThisWeek

/-- Embedding of `getDay()` in day-number coordinates: day 0 (1970-01-01) is a
Thursday and `getDay` numbers the weekdays 0 = Sunday … 6 = Saturday. -/
def dayOfWeek (day : ℤ) : ℤ := (day + 4) % 7

/-- Embedding of `startOfWeek(d)` / `startOfWeekISO(d)`:
`diff = (day === 0 ? -6 : 1) - day` days are added and the time is cleared to
local midnight. -/
def startOfWeek (x : Instant) : Instant :=
  let day := dayOfWeek x.day
  let diff := (if day = 0 then -6 else 1) - day
  ⟨x.day + diff, 0⟩

/-- A local calendar date in component coordinates (`getFullYear`,
`getMonth() + 1`, `getDate`). -/
structure LocalDate where
  year : ℤ
  month : ℤ
  day : ℤ
deriving DecidableEq, Repr

/-- A local date-time: the date plus the minute of the day
(`0` = local midnight). -/
structure LocalDateTime where
  date : LocalDate
  minuteOfDay : ℕ
deriving DecidableEq, Repr

/-- Gregorian leap-year rule (the rule the JS `Date` calendar follows). -/
def isLeapYear (y : ℤ) : Bool :=
  (y % 4 == 0 && y % 100 != 0) || y % 400 == 0

/-- Number of days of month `m` (1–12) of year `y` in the JS `Date`
calendar. -/
def daysInMonth (y m : ℤ) : ℤ :=
  if m = 2 then (if isLeapYear y then 29 else 28)
  else if m = 4 ∨ m = 6 ∨ m = 9 ∨ m = 11 then 30
  else 31

/-- Embedding of `e.setDate(e.getDate() + 1)`: step to the next calendar day,
rolling over month and year ends. -/
def nextDay (dt : LocalDate) : LocalDate :=
  if dt.day < daysInMonth dt.year dt.month then ⟨dt.year, dt.month, dt.day + 1⟩
  else if dt.month < 12 then ⟨dt.year, dt.month + 1, 1⟩
  else ⟨dt.year + 1, 1, 1⟩

/-- Embedding of the JS constructor `new Date(y, monthIndex, day, 0, 0, 0, 0)`
(local midnight), modelled only on the argument region where the real
constructor neither rolls over nor rejects: year (after the two-digit-year
rule, which maps 0–99 to 1900 + y and is included here) within a few thousand
years of the present, `monthIndex` in 0–11, `day` in range for the month.
Outside that region the real constructor normalizes out-of-range month/day by
rollover and yields an Invalid Date once the time value leaves its
representable range (about ±275760 years); neither behavior is modelled, and
every theorem in this development evaluates this definition only inside the
modelled region. -/
def jsMakeDate (y monthIndex day : ℤ) : LocalDate :=
  let yr := if 0 ≤ y ∧ y ≤ 99 then y + 1900 else y
  ⟨yr, monthIndex + 1, day⟩

/-- The character of a decimal digit. -/
def digitChar (n : ℕ) : Char :=
  match n % 10 with
  | 0 => '0'
  | 1 => '1'
  | 2 => '2'
  | 3 => '3'
  | 4 => '4'
  | 5 => '5'
  | 6 => '6'
  | 7 => '7'
  | 8 => '8'
  | _ => '9'

/-- Fuel-driven loop producing the decimal digit characters of `n`, most
significant first, in front of `acc` (the number-to-string conversion JS
performs in a template literal, for a non-negative integer). -/
def natDigitsGo (fuel n : ℕ) (acc : List Char) : List Char :=
  match fuel with
  | 0 => acc
  | fuel + 1 =>
    if n < 10 then digitChar n :: acc
    else natDigitsGo fuel (n / 10) (digitChar (n % 10) :: acc)

/-- Decimal digit characters of `n`, most significant first.  `n + 1` units of
fuel always suffice because the remaining value shrinks by a factor of ten per
step. -/
def natDigits (n : ℕ) : List Char := natDigitsGo (n + 1) n []

/-- JS number-to-string conversion for an integer (template literal
`${yyyy}`). -/
def intChars (z : ℤ) : List Char :=
  if z < 0 then '-' :: natDigits z.natAbs else natDigits z.toNat

/-- Embedding of `String(n).padStart(2, "0")` for a non-negative integer. -/
def pad2 (n : ℕ) : List Char :=
  let s := natDigits n
  if s.length < 2 then '0' :: s else s

/-- Embedding of `dateToYMD(d)`: `${yyyy}-${mm}-${dd}` with month and day
zero-padded to two characters and the year printed unpadded (the source's
`getFullYear` is embedded by `intChars`, which matches JS number printing;
month and day of a `Date` are non-negative, hence `toNat`). -/
def dateToYMD (x : LocalDateTime) : String :=
  ⟨intChars x.date.year ++ '-' :: pad2 x.date.month.toNat ++ '-' :: pad2 x.date.day.toNat⟩

/-- The numeric value of a list of decimal digit characters (the accumulator
loop of a base-10 integer parse). -/
def valDigits (ds : List Char) : ℕ :=
  ds.foldl (fun a c => 10 * a + (c.toNat - 48)) 0

/-- Embedding of `parseInt(x, 10)` for the strings this code feeds it (pieces
of a `split`, hence sign-free): skip leading whitespace, read the leading run
of decimal digits, `NaN` (here `none`) when there is none.  (The hexadecimal
`0x` form of `parseInt` is not modelled; no input here uses it.) -/
def parseIntChars (cs : List Char) : Option ℤ :=
  let ds := (cs.dropWhile Char.isWhitespace).takeWhile Char.isDigit
  if ds.isEmpty then none else some ((valDigits ds : ℕ) : ℤ)

/-- Embedding of `String.prototype.split` with a one-character separator. -/
def splitOnChar (sep : Char) : List Char → List (List Char)
  | [] => [[]]
  | c :: rest =>
    let r := splitOnChar sep rest
    if c = sep then [] :: r
    else
      match r with
      | [] => [[c]]
      | g :: gs => (c :: g) :: gs

/-- Embedding of `ymdToBounds(ymd)`: split on `-`, `parseInt` each piece
(a missing piece destructures to `undefined`, which `parseInt` turns into
`NaN`, here `none`), default a falsy (`NaN` or `0`) month or day to 1, and
build the half-open one-day range starting at local midnight of
`new Date(y, m - 1, d)`.  An unparsable year makes that constructor produce an
Invalid Date, whose `toISOString()` serialization in the returned record
throws a RangeError; that throw is the `none` result.  The source has a second
route to the same throw that this embedding does not model: components that
parse but are out of range (a month index outside 0–11, a day outside the
month, a year beyond the Date time-value limit) are normalized by rollover or
rejected by the constructor itself, per the `jsMakeDate` restriction above;
no theorem in this file states anything about such inputs. -/
def ymdToBounds (ymd : String) : Option (LocalDateTime × LocalDateTime) :=
  let parts := splitOnChar '-' ymd.data
  let y? : Option ℤ := match parts with
    | cs :: _ => parseIntChars cs
    | [] => none
  let m? : Option ℤ := match parts with
    | _ :: cs :: _ => parseIntChars cs
    | _ => none
  let d? : Option ℤ := match parts with
    | _ :: _ :: cs :: _ => parseIntChars cs
    | _ => none
  let m : ℤ := match m? with
    | some v => if v = 0 then 1 else v
    | none => 1
  let d : ℤ := match d? with
    | some v => if v = 0 then 1 else v
    | none => 1
  match y? with
  | none => none
  | some y =>
    let s := jsMakeDate y (m - 1) d
    some (⟨s, 0⟩, ⟨nextDay s, 0⟩)

/-- Database write outcomes, as the supabase client reports them (a result
object carrying an `error` field; failures are values, not exceptions). -/
inductive DbResult
  | ok
  | err
deriving DecidableEq, Repr

/-- What the user is told at the end of `complete(workoutId)`. -/
inductive CompleteAlert
  | completeFailed
  | completedPlusTen
deriving DecidableEq, Repr

/-- Embedding of the control flow of `complete(workoutId)`: the completion
insert's error is checked and surfaced (`"Complete failed"`); then
`awardPoints(10)` runs, whose internal points upsert result is never
destructured or inspected, and the success alert `"Completed ✅ +10 points"`
is shown unconditionally. -/
def completeAlert (insertRes pointsUpsertRes : DbResult) : CompleteAlert :=
  match insertRes, pointsUpsertRes with
  | .err, _ => .completeFailed
  | .ok, _ => .completedPlusTen

theorem streak_zero_of_not_mem (days : Finset ℤ) (t : ℤ) (h : t ∉ days) :
    computeStreakFromDays days t = 0 := by
  unfold computeStreakFromDays
  simp [h]

theorem streak_chain (k : ℕ) : ∀ (days : Finset ℤ) (t : ℤ),
    (∀ i : ℕ, i ≤ k → (t - (i : ℤ)) ∈ days) → (t - ((k : ℤ) + 1)) ∉ days →
    computeStreakFromDays days t = k + 1 := by
  induction k with
  | zero =>
    intro days t hin hout
    have ht : t ∈ days := by simpa using hin 0 (le_refl 0)
    have h1 : (t - 1) ∉ days.erase t := by
      intro hmem
      exact hout (by simpa using Finset.mem_of_mem_erase hmem)
    unfold computeStreakFromDays
    rw [dif_pos ht, streak_zero_of_not_mem _ _ h1]
  | succ k ih =>
    intro days t hin hout
    have ht : t ∈ days := by simpa using hin 0 (Nat.zero_le _)
    have hchain : ∀ i : ℕ, i ≤ k → ((t - 1) - (i : ℤ)) ∈ days.erase t := by
      intro i hik
      refine Finset.mem_erase.mpr ⟨by omega, ?_⟩
      have := hin (i + 1) (by omega)
      have hcast : t - ((i : ℤ) + 1) = t - 1 - (i : ℤ) := by ring
      rw [← hcast]
      simpa using this
    have hgap : ((t - 1) - ((k : ℤ) + 1)) ∉ days.erase t := by
      intro hmem
      have := Finset.mem_of_mem_erase hmem
      have hcast : t - 1 - ((k : ℤ) + 1) = t - (((k : ℤ) + 1) + 1) := by ring
      rw [hcast] at this
      refine hout ?_
      have : t - (((k + 1 : ℕ) : ℤ) + 1) ∈ days := by push_cast; simpa using this
      exact this
    unfold computeStreakFromDays
    rw [dif_pos ht, ih (days.erase t) (t - 1) hchain hgap]

/-- Claim C1: the streak over the day-key set of a collection of completion
timestamps counts the consecutive calendar days, walking backward from today
(`t`): if today's key is absent the streak is 0 regardless of any run ending
yesterday, and if today's key is present together with the prior `k` days and
a gap at day `k + 1`, the streak is `k + 1`; the same holds for the underlying
walk over an arbitrary day-key set. -/
theorem claim1_streak (rows : List Instant) (t : ℤ) (k : ℕ) :
    (t ∉ (rows.map dayKey).toFinset → calcStreakFromCompletions rows t = 0) ∧
    ((∀ i : ℕ, i ≤ k → (t - (i : ℤ)) ∈ (rows.map dayKey).toFinset) →
      (t - ((k : ℤ) + 1)) ∉ (rows.map dayKey).toFinset →
      calcStreakFromCompletions rows t = k + 1) ∧
    (∀ days : Finset ℤ,
      (t ∉ days → computeStreakFromDays days t = 0) ∧
      ((∀ i : ℕ, i ≤ k → (t - (i : ℤ)) ∈ days) → (t - ((k : ℤ) + 1)) ∉ days →
        computeStreakFromDays days t = k + 1)) := by
  refine ⟨?_, ?_, fun days => ⟨streak_zero_of_not_mem days t, streak_chain k days t⟩⟩
  · intro h
    unfold calcStreakFromCompletions
    split
    · rfl
    · exact streak_zero_of_not_mem _ _ h
  · intro hin hout
    have hne : rows ≠ [] := by
      intro hnil
      have := hin 0 (Nat.zero_le _)
      simp [hnil] at this
    unfold calcStreakFromCompletions
    rw [if_neg hne]
    exact streak_chain k _ t hin hout

/-- Witness for C1 at a concrete input: completions on today (day 100) and
yesterday only, with a gap two days back, give a streak of 2. -/
theorem claim1_streak_witness :
    calcStreakFromCompletions [⟨100, 540⟩, ⟨99, 30⟩] 100 = 1 + 1 :=
  (claim1_streak [⟨100, 540⟩, ⟨99, 30⟩] 100 1).2.1
    (by decide) (by decide)

/-- Claim C2: for non-negative `p`, `xpFromPoints` returns
`level = ⌊p / 100⌋ + 1`, `inLevel = p mod 100`, `pct = inLevel / 100`
(the clamp to `[0, 1]` is the identity there), `nextAt = level * 100`, with
`level ≥ 1`, `inLevel ∈ [0, 100)`, `pct ∈ [0, 1]`; and
`xpFromPoints 250 = {level := 3, inLevel := 50, pct := 1/2, nextAt := 300}`. -/
theorem claim2_xpFromPoints (p : ℤ) (hp : 0 ≤ p) :
    (xpFromPoints p).level = p / 100 + 1 ∧
    (xpFromPoints p).inLevel = p % 100 ∧
    (xpFromPoints p).pct = (((p % 100 : ℤ) : ℚ)) / 100 ∧
    (xpFromPoints p).nextAt = (xpFromPoints p).level * 100 ∧
    1 ≤ (xpFromPoints p).level ∧
    0 ≤ (xpFromPoints p).inLevel ∧ (xpFromPoints p).inLevel < 100 ∧
    0 ≤ (xpFromPoints p).pct ∧ (xpFromPoints p).pct ≤ 1 ∧
    xpFromPoints 250 = ⟨3, 50, 1/2, 300⟩ := by
  have hmod : p.tmod 100 = p % 100 := Int.tmod_eq_emod hp (by norm_num)
  have hfloor : ⌊(p : ℚ) / 100⌋ = p / 100 := by
    rw [show ((100 : ℚ)) = ((100 : ℕ) : ℚ) by norm_num,
      Rat.floor_intCast_div_natCast]
    norm_num
  have hm0 : 0 ≤ p % 100 := Int.emod_nonneg p (by norm_num)
  have hm1 : p % 100 < 100 := Int.emod_lt_of_pos p (by norm_num)
  have hq0 : (0 : ℚ) ≤ ((p % 100 : ℤ) : ℚ) / 100 := by positivity
  have hq1 : ((p % 100 : ℤ) : ℚ) / 100 ≤ 1 := by
    rw [div_le_one (by norm_num)]
    exact_mod_cast hm1.le
  have hpct : (xpFromPoints p).pct = ((p % 100 : ℤ) : ℚ) / 100 := by
    simp only [xpFromPoints, hmod]
    rw [min_eq_right hq1, max_eq_right hq0]
  refine ⟨by simp [xpFromPoints, hfloor], by simp [xpFromPoints, hmod], hpct,
    by simp [xpFromPoints], ?_, ?_, ?_, ?_, ?_, ?_⟩
  · simp only [xpFromPoints, hfloor]
    have : 0 ≤ p / 100 := Int.ediv_nonneg hp (by norm_num)
    omega
  · simpa [xpFromPoints, hmod] using hm0
  · simpa [xpFromPoints, hmod] using hm1
  · rw [hpct]; exact hq0
  · rw [hpct]; exact hq1
  · have h250 : ⌊(((250 : ℤ) : ℚ)) / 100⌋ = 2 := by
      rw [show ((100 : ℚ)) = ((100 : ℕ) : ℚ) by norm_num,
        Rat.floor_intCast_div_natCast]
      norm_num
    have h50 : ((250 : ℤ).tmod 100) = 50 := by decide
    simp only [xpFromPoints, XPState.mk.injEq, h250, h50]
    refine ⟨by norm_num, trivial, ?_, by norm_num⟩
    rw [show ((50 : ℤ) : ℚ) / 100 = 1 / 2 by norm_num,
      min_eq_right (by norm_num : (1 : ℚ) / 2 ≤ 1),
      max_eq_right (by norm_num : (0 : ℚ) ≤ 1 / 2)]

/-- Witness for C2 at `p = 250`. -/
theorem claim2_xpFromPoints_witness :
    xpFromPoints 250 = ⟨3, 50, 1/2, 300⟩ :=
  (claim2_xpFromPoints 250 (by norm_num)).2.2.2.2.2.2.2.2.2

/-- Claim C3: `awardPoints(delta)` stores exactly the value read beforehand
(defaulting to 0 when no settings row exists) plus the delta; for any
non-negative delta — and in particular for the `+10` the completion action
awards — the stored points value never decreases. -/
theorem claim3_awardPoints :
    (∀ (stored : Option ℤ) (delta : ℤ),
      awardPoints stored delta = some (stored.getD 0 + delta)) ∧
    (∀ (stored : Option ℤ) (delta : ℤ), 0 ≤ delta →
      stored.getD 0 ≤ (awardPoints stored delta).getD 0) ∧
    (∀ stored : Option ℤ,
      completePoints stored = some (stored.getD 0 + 10) ∧
      stored.getD 0 ≤ (completePoints stored).getD 0) := by
  refine ⟨?_, ?_, ?_⟩
  · intro stored delta
    cases stored <;> simp [awardPoints]
  · intro stored delta hd
    cases stored <;> simp [awardPoints] <;> omega
  · intro stored
    cases stored <;> simp [completePoints, awardPoints]

/-- Witness for C3: awarding the completion's `+10` to a stored value of 5
does not decrease it. -/
theorem claim3_awardPoints_witness :
    (some 5 : Option ℤ).getD 0 ≤ (awardPoints (some 5) 10).getD 0 :=
  claim3_awardPoints.2.1 (some 5) 10 (by norm_num)

/-- Claim C5: both achievement tables are monotone in the counters: whenever
every counter of `b` is at least the matching counter of `a`, every
achievement unlocked under `a` stays unlocked under `b`. -/
theorem claim5_achievements_monotone (a b : Counters) (hab : Counters.le a b) :
    List.Forall₂ (fun x y => x.ok = true → y.ok = true)
      (computeAchievements a) (computeAchievements b) ∧
    List.Forall₂ (fun x y => x.ok = true → y.ok = true)
      (achievements a) (achievements b) := by
  obtain ⟨h1, h2, h3, h4, h5⟩ := hab
  constructor <;>
    · simp only [computeAchievements, achievements, List.forall₂_cons,
        decide_eq_true_eq]
      repeat' apply And.intro
      all_goals first
        | exact List.Forall₂.nil
        | (intro h; omega)

/-- Witness for C5: a counter tuple below another, concretely. -/
theorem claim5_achievements_monotone_witness :
    List.Forall₂ (fun x y => x.ok = true → y.ok = true)
      (computeAchievements ⟨1, 2, 3, 0, 2⟩) (computeAchievements ⟨5, 10, 7, 100, 4⟩) ∧
    List.Forall₂ (fun x y => x.ok = true → y.ok = true)
      (achievements ⟨1, 2, 3, 0, 2⟩) (achievements ⟨5, 10, 7, 100, 4⟩) :=
  claim5_achievements_monotone ⟨1, 2, 3, 0, 2⟩ ⟨5, 10, 7, 100, 4⟩
    (by refine ⟨?_, ?_, ?_, ?_, ?_⟩ <;> norm_num)

/-- Claim C7: `startOfWeek` returns local midnight of the Monday on or before
the instant: the minute is 0, the result is a Monday, it is at most the given
day and less than seven days before it, a Monday maps to itself, and a Sunday
maps to the Monday six days prior. -/
theorem claim7_startOfWeek (x : Instant) :
    (startOfWeek x).mins = 0 ∧
    dayOfWeek (startOfWeek x).day = 1 ∧
    (startOfWeek x).day ≤ x.day ∧
    x.day - (startOfWeek x).day < 7 ∧
    (dayOfWeek x.day = 1 → (startOfWeek x).day = x.day) ∧
    (dayOfWeek x.day = 0 → (startOfWeek x).day = x.day - 6) := by
  refine ⟨rfl, ?_, ?_, ?_, ?_, ?_⟩ <;>
    · simp only [startOfWeek, dayOfWeek]
      split <;> omega

/-- Witness for C7: day 3 (1970-01-04) is a Sunday and maps to day `-3`
(1969-12-29), the Monday six days prior. -/
theorem claim7_startOfWeek_witness :
    (startOfWeek ⟨3, 600⟩).day = 3 - 6 :=
  (claim7_startOfWeek ⟨3, 600⟩).2.2.2.2.2 (by decide)

/-- Claim C9 (recording the divergence): when the completion insert succeeds
but the points upsert inside `awardPoints` fails, `complete` still reports the
optimistic success `"Completed ✅ +10 points"`; the upsert failure is silently
swallowed, contradicting the stated surfacing of ledger-write failures. -/
theorem claim9_complete_alert :
    completeAlert .ok .err = .completedPlusTen ∧
    completeAlert .ok .err ≠ .completeFailed := by
  exact ⟨rfl, by decide⟩

/-- Claim C4: the timeline has exactly 14 buckets in oldest-first order whose
keys are the trailing 14 calendar days ending today and are pairwise distinct;
each bucket counts exactly the completions of its day; `isToday` holds exactly
for the last (today's) bucket; and a completion 20 days old contributes to no
bucket. -/
theorem claim4_timeline (rows : List Instant) (today : ℤ) :
    (timeline rows today).length = 14 ∧
    (timeline rows today).map DayBucket.ymd
      = (List.range 14).map (fun j : ℕ => today - 13 + (j : ℤ)) ∧
    ((timeline rows today).map DayBucket.ymd).Nodup ∧
    (∀ b ∈ timeline rows today,
      b.count = (rows.filter (fun r => decide (dayKey r = b.ymd))).length ∧
      (b.isToday = true ↔ b.ymd = today)) ∧
    (timeline rows today).map DayBucket.isToday
      = List.replicate 13 false ++ [true] ∧
    (∀ mins : ℕ, ∀ b ∈ timeline [⟨today - 20, mins⟩] today, b.count = 0) := by
  have hmap : (timeline rows today).map DayBucket.ymd
      = (List.range 14).map (fun j : ℕ => today - 13 + (j : ℤ)) := by
    simp only [timeline, List.map_map]
    refine List.map_congr_left ?_
    intro j hj
    simp only [Function.comp_apply]
    omega
  refine ⟨by simp [timeline], hmap, ?_, ?_, ?_, ?_⟩
  · rw [hmap]
    refine List.Nodup.map ?_ (List.nodup_range 14)
    intro a b h
    simp only at h
    omega
  · intro b hb
    simp only [timeline, List.mem_map, List.mem_range] at hb
    obtain ⟨j, hj, rfl⟩ := hb
    exact ⟨rfl, by simp [decide_eq_true_eq]⟩
  · have htod : (timeline rows today).map DayBucket.isToday
        = (List.range 14).map (fun j : ℕ => decide (j = 13)) := by
      simp only [timeline, List.map_map]
      refine List.map_congr_left ?_
      intro j hj
      simp only [Function.comp_apply, List.mem_range] at *
      rw [decide_eq_decide]
      omega
    rw [htod]
    decide
  · intro mins b hb
    simp only [timeline, List.mem_map, List.mem_range] at hb
    obtain ⟨j, hj, rfl⟩ := hb
    have hne : ¬ ((today - 20 : ℤ) = today - (13 - (j : ℤ))) := by omega
    simp [dayKey, hne]

/-- Witness for C4: with a single completion 20 days before day 0, the first
bucket of the timeline (day `-13`, count 0, not today) is counted empty. -/
theorem claim4_timeline_witness :
    (⟨-13, 0, false⟩ : DayBucket).count = 0 ∧ (timeline [] 0).length = 14 :=
  ⟨(claim4_timeline [] 0).2.2.2.2.2 7 ⟨-13, 0, false⟩ (by decide),
   (claim4_timeline [] 0).1⟩

theorem digitChar_isDigit (n : ℕ) : (digitChar n).isDigit = true := by
  have hlt : n % 10 < 10 := Nat.mod_lt _ (by omega)
  unfold digitChar
  generalize hk : n % 10 = k at *
  interval_cases k <;> decide

theorem digitChar_toNat (n : ℕ) : (digitChar n).toNat - 48 = n % 10 := by
  have hlt : n % 10 < 10 := Nat.mod_lt _ (by omega)
  unfold digitChar
  generalize hk : n % 10 = k at *
  interval_cases k <;> decide

theorem ws_of_digit (c : Char) (h : c.isDigit = true) : c.isWhitespace = false := by
  by_contra hw
  simp only [Bool.not_eq_false] at hw
  have hcases : ((c = ' ' ∨ c = '\t') ∨ c = '\r') ∨ c = '\n' := by
    simpa [Char.isWhitespace] using hw
  rcases hcases with ((rfl | rfl) | rfl) | rfl <;> exact absurd h (by decide)

theorem natDigitsGo_acc (fuel : ℕ) : ∀ (n : ℕ) (acc : List Char),
    natDigitsGo fuel n acc = natDigitsGo fuel n [] ++ acc := by
  induction fuel with
  | zero => intro n acc; simp [natDigitsGo]
  | succ fuel ih =>
    intro n acc
    unfold natDigitsGo
    by_cases h : n < 10
    · simp [h]
    · rw [if_neg h, if_neg h, ih (n / 10) (digitChar (n % 10) :: acc),
        ih (n / 10) [digitChar (n % 10)], List.append_assoc]
      rfl

theorem natDigitsGo_digits (fuel : ℕ) : ∀ (n : ℕ) (acc : List Char),
    (∀ c ∈ acc, c.isDigit = true) →
    ∀ c ∈ natDigitsGo fuel n acc, c.isDigit = true := by
  induction fuel with
  | zero => intro n acc hacc; simpa [natDigitsGo] using hacc
  | succ fuel ih =>
    intro n acc hacc c hc
    unfold natDigitsGo at hc
    by_cases h : n < 10
    · rw [if_pos h] at hc
      rcases List.mem_cons.mp hc with rfl | hmem
      · exact digitChar_isDigit n
      · exact hacc c hmem
    · rw [if_neg h] at hc
      refine ih (n / 10) (digitChar (n % 10) :: acc) ?_ c hc
      intro c' hc'
      rcases List.mem_cons.mp hc' with rfl | hmem
      · exact digitChar_isDigit (n % 10)
      · exact hacc c' hmem

theorem natDigitsGo_ne_nil (fuel : ℕ) : ∀ (n : ℕ) (acc : List Char),
    0 < fuel ∨ acc ≠ [] → natDigitsGo fuel n acc ≠ [] := by
  induction fuel with
  | zero =>
    intro n acc h
    simpa [natDigitsGo] using h.resolve_left (by omega)
  | succ fuel ih =>
    intro n acc _
    unfold natDigitsGo
    by_cases h : n < 10
    · simp [h]
    · rw [if_neg h]
      exact ih (n / 10) (digitChar (n % 10) :: acc) (Or.inr (by simp))

theorem valDigits_append_digit (ds : List Char) (c : Char) :
    valDigits (ds ++ [c]) = 10 * valDigits ds + (c.toNat - 48) := by
  simp [valDigits, List.foldl_append]

theorem valDigits_natDigitsGo (fuel : ℕ) : ∀ n : ℕ, n < fuel →
    valDigits (natDigitsGo fuel n []) = n := by
  induction fuel with
  | zero => intro n h; omega
  | succ fuel ih =>
    intro n h
    unfold natDigitsGo
    by_cases h10 : n < 10
    · rw [if_pos h10]
      have := digitChar_toNat n
      simp only [valDigits, List.foldl_cons, List.foldl_nil]
      omega
    · rw [if_neg h10, natDigitsGo_acc, valDigits_append_digit,
        ih (n / 10) (by omega), digitChar_toNat]
      omega

theorem natDigits_digit (n : ℕ) : ∀ c ∈ natDigits n, c.isDigit = true :=
  natDigitsGo_digits (n + 1) n [] (by simp)

theorem natDigits_ne_nil (n : ℕ) : natDigits n ≠ [] :=
  natDigitsGo_ne_nil (n + 1) n [] (Or.inl (by omega))

theorem valDigits_natDigits (n : ℕ) : valDigits (natDigits n) = n :=
  valDigits_natDigitsGo (n + 1) n (by omega)

theorem takeWhile_all (p : Char → Bool) : ∀ ds : List Char,
    (∀ c ∈ ds, p c = true) → ds.takeWhile p = ds := by
  intro ds
  induction ds with
  | nil => intro; rfl
  | cons c tl ih =>
    intro h
    rw [List.takeWhile_cons, h c (by simp), ih (fun c' hc' => h c' (by simp [hc']))]
    simp

theorem parseIntChars_digits (ds : List Char) (hne : ds ≠ [])
    (hd : ∀ c ∈ ds, c.isDigit = true) :
    parseIntChars ds = some ((valDigits ds : ℕ) : ℤ) := by
  unfold parseIntChars
  have h1 : ds.dropWhile Char.isWhitespace = ds := by
    cases ds with
    | nil => rfl
    | cons c tl =>
      rw [List.dropWhile_cons, ws_of_digit c (hd c (by simp))]
      simp
  rw [h1, takeWhile_all _ ds hd]
  simp [hne]

theorem parse_natDigits (n : ℕ) : parseIntChars (natDigits n) = some (n : ℤ) := by
  rw [parseIntChars_digits _ (natDigits_ne_nil n) (natDigits_digit n),
    valDigits_natDigits]

theorem valDigits_cons_zero (ds : List Char) :
    valDigits ('0' :: ds) = valDigits ds := by
  simp [valDigits, List.foldl_cons]

theorem pad2_digits (n : ℕ) : ∀ c ∈ pad2 n, c.isDigit = true := by
  intro c hc
  unfold pad2 at hc
  by_cases h : (natDigits n).length < 2
  · rw [if_pos h] at hc
    rcases List.mem_cons.mp hc with rfl | hmem
    · decide
    · exact natDigits_digit n c hmem
  · rw [if_neg h] at hc
    exact natDigits_digit n c hc

theorem pad2_ne_nil (n : ℕ) : pad2 n ≠ [] := by
  unfold pad2
  by_cases h : (natDigits n).length < 2
  · simp [h]
  · rw [if_neg h]
    exact natDigits_ne_nil n

theorem pad2_parse (n : ℕ) : parseIntChars (pad2 n) = some (n : ℤ) := by
  unfold pad2
  by_cases h : (natDigits n).length < 2
  · rw [if_pos h,
      parseIntChars_digits _ (by simp)
        (fun c hc => by
          rcases List.mem_cons.mp hc with rfl | hmem
          · decide
          · exact natDigits_digit n c hmem),
      valDigits_cons_zero, valDigits_natDigits]
  · rw [if_neg h]
    exact parse_natDigits n

theorem not_mem_digits (ds : List Char) (hd : ∀ c ∈ ds, c.isDigit = true)
    (c : Char) (hc : c.isDigit = false) : c ∉ ds := by
  intro hm
  exact absurd (hd c hm) (by simp [hc])

theorem splitOnChar_ne_nil (sep : Char) : ∀ cs : List Char,
    splitOnChar sep cs ≠ [] := by
  intro cs
  induction cs with
  | nil => simp [splitOnChar]
  | cons c tl ih =>
    unfold splitOnChar
    by_cases h : c = sep
    · simp [h]
    · rw [if_neg h]
      rcases hr : splitOnChar sep tl with _ | ⟨g, gs⟩
      · exact absurd hr ih
      · simp

theorem splitOnChar_no_sep (sep : Char) : ∀ cs : List Char, sep ∉ cs →
    splitOnChar sep cs = [cs] := by
  intro cs
  induction cs with
  | nil => intro; rfl
  | cons c tl ih =>
    intro h
    have hc : ¬ (c = sep) := fun hh => h (by simp [hh])
    have htl : sep ∉ tl := fun hh => h (by simp [hh])
    unfold splitOnChar
    rw [if_neg hc, ih htl]

theorem splitOnChar_append (sep : Char) : ∀ (a rest : List Char), sep ∉ a →
    splitOnChar sep (a ++ sep :: rest) = a :: splitOnChar sep rest := by
  intro a
  induction a with
  | nil =>
    intro rest _
    simp [splitOnChar]
  | cons c a' ih =>
    intro rest h
    have hc : ¬ (c = sep) := fun hh => h (by simp [hh])
    have ha' : sep ∉ a' := fun hh => h (by simp [hh])
    show splitOnChar sep (c :: (a' ++ sep :: rest)) = (c :: a') :: splitOnChar sep rest
    simp [splitOnChar, hc, ih rest ha']

theorem ymdToBounds_canonical (y m d : ℤ) (hy : 100 ≤ y)
    (hm1 : 1 ≤ m) (hd1 : 1 ≤ d) :
    ymdToBounds (dateToYMD ⟨⟨y, m, d⟩, 0⟩)
      = some (⟨⟨y, m, d⟩, 0⟩, ⟨nextDay ⟨y, m, d⟩, 0⟩) := by
  have hnodash_y : '-' ∉ natDigits y.toNat :=
    not_mem_digits _ (natDigits_digit _) '-' (by decide)
  have hnodash_m : '-' ∉ pad2 m.toNat :=
    not_mem_digits _ (pad2_digits _) '-' (by decide)
  have hnodash_d : '-' ∉ pad2 d.toNat :=
    not_mem_digits _ (pad2_digits _) '-' (by decide)
  have hdata : (dateToYMD ⟨⟨y, m, d⟩, 0⟩).data
      = natDigits y.toNat ++ '-' :: (pad2 m.toNat ++ '-' :: pad2 d.toNat) := by
    simp [dateToYMD, intChars, show ¬ (y < 0) from by omega]
  have hsplit : splitOnChar '-' (dateToYMD ⟨⟨y, m, d⟩, 0⟩).data
      = [natDigits y.toNat, pad2 m.toNat, pad2 d.toNat] := by
    rw [hdata, splitOnChar_append '-' _ _ hnodash_y,
      splitOnChar_append '-' _ _ hnodash_m, splitOnChar_no_sep '-' _ hnodash_d]
  have hyto : ((y.toNat : ℕ) : ℤ) = y := Int.toNat_of_nonneg (by omega)
  have hmto : ((m.toNat : ℕ) : ℤ) = m := Int.toNat_of_nonneg (by omega)
  have hdto : ((d.toNat : ℕ) : ℤ) = d := Int.toNat_of_nonneg (by omega)
  simp only [ymdToBounds, hsplit, parse_natDigits, pad2_parse, hyto, hmto, hdto]
  rw [if_neg (by omega : ¬ (m = 0)), if_neg (by omega : ¬ (d = 0))]
  simp only [jsMakeDate, show ¬ (0 ≤ y ∧ y ≤ 99) from by omega, if_false,
    show m - 1 + 1 = m from by omega]

/-- Claim C6 counterexample: `"0100-01-01"` is a well-formed `YYYY-MM-DD`
string for the valid calendar date 0100-01-01, yet the round trip returns
`"100-01-01"` (the year is printed unpadded), so
`dateToYMD(ymdToBounds(s).start) ≠ s`. -/
theorem claim6_roundtrip_counterexample :
    (ymdToBounds "0100-01-01").map (fun b => dateToYMD b.1) = some "100-01-01" ∧
    ("100-01-01" : String) ≠ "0100-01-01" := by
  constructor <;> decide

/-- Claim C6 (amended: restricted to years 1000–9999, i.e. to year strings
without a leading zero): for every valid calendar date in that range, encoded
canonically as `YYYY-MM-DD`, `ymdToBounds` returns the half-open one-day range
from local midnight of that date to local midnight of the following date, and
`dateToYMD` of the range's start returns the original string. -/
theorem claim6_roundtrip (y m d : ℤ) (hy1 : 1000 ≤ y) (hy2 : y ≤ 9999)
    (hm1 : 1 ≤ m) (hm2 : m ≤ 12) (hd1 : 1 ≤ d) (hd2 : d ≤ daysInMonth y m) :
    ymdToBounds (dateToYMD ⟨⟨y, m, d⟩, 0⟩)
      = some (⟨⟨y, m, d⟩, 0⟩, ⟨nextDay ⟨y, m, d⟩, 0⟩) ∧
    (ymdToBounds (dateToYMD ⟨⟨y, m, d⟩, 0⟩)).map (fun b => dateToYMD b.1)
      = some (dateToYMD ⟨⟨y, m, d⟩, 0⟩) := by
  have h := ymdToBounds_canonical y m d (by omega) hm1 hd1
  exact ⟨h, by rw [h]; rfl⟩

/-- Witness for C6 at the spec's scenario `"2024-03-01"`: bounds are local
midnight 2024-03-01 up to local midnight 2024-03-02 and the key round-trips. -/
theorem claim6_roundtrip_witness :
    ymdToBounds (dateToYMD ⟨⟨2024, 3, 1⟩, 0⟩)
      = some (⟨⟨2024, 3, 1⟩, 0⟩, ⟨nextDay ⟨2024, 3, 1⟩, 0⟩) ∧
    (ymdToBounds (dateToYMD ⟨⟨2024, 3, 1⟩, 0⟩)).map (fun b => dateToYMD b.1)
      = some (dateToYMD ⟨⟨2024, 3, 1⟩, 0⟩) :=
  claim6_roundtrip 2024 3 1 (by norm_num) (by norm_num) (by norm_num)
    (by norm_num) (by norm_num) (by decide)

